import Mathlib

/-
  Verification of the crypto-project-go backfill/sync pipeline.

  Sources embedded here:
  - pkg/cryptocompare/client.go : OHLCVData, NewClient.
  - cmd/fetchdata.go : removeInvalidOHLCVData, the downloadWorker guard and the
    WaitGroup completion accounting of the two-stage pipeline.
  - pkg/db/db.go : UpsertMinuteOHLCData / UpsertHourlyOHLCData / UpsertDailyOHLCData,
    all three share one row-at-a-time loop over an ON CONFLICT DO UPDATE create.
  - pkg/models/models.go : CryptoOHLCV rows with a unique composite index on
    (trading_symbol, vs_currency, timestamp).
  The fetch-all client that fetchdata.go calls (the two-argument
  FetchAll*OHLCVData together with sortByTime, isVolumeFromZeroInDataSet and
  removeNotReadyData) is absent from the source tree; only its callers and its
  unit tests are present, so those definitions are modelled from the spec and
  checked against the shipped tests.

  Price and volume fields use shopspring decimal (exact decimal arithmetic with
  exact zero tests); they are embedded as rational numbers.
-/

/-- One OHLCV observation as decoded from the upstream API
    (struct OHLCVData, client.go). The field named open in Go is
    open_ here because open is a Lean keyword. -/
structure OHLCVData where
  time : Int
  open_ : ℚ
  high : ℚ
  low : ℚ
  close : ℚ
  volumeFrom : ℚ
  volumeTo : ℚ
deriving DecidableEq

/-- Modelled from the spec: one page returned by fetchPage, an ordered list of
    raw bars plus the earliest timestamp of the page, used as the next
    pagination cursor. The current client code is absent from the source tree. -/
structure FetchPage where
  bars : List OHLCVData
  timeFrom : Int
deriving DecidableEq

/-- Modelled from the spec: the outcome of one fetchPage call made by a stub
    remote fetch client: either a page or a transport/upstream/decode error. -/
inductive FetchResult where
  | ok (page : FetchPage)
  | fail (msg : String)
deriving DecidableEq

/-- Modelled from the spec: isVolumeFromZeroInDataSet, present in the source
    tree only through its unit test TestIsVolumeFromZeroInDataSet. True when
    every bar of the data set has zero base volume; true on the empty set. -/
def isVolumeFromZeroInDataSet (data : List OHLCVData) : Bool :=
  data.all (fun d => d.volumeFrom == 0)

/-- Modelled from the spec: removeNotReadyData, present in the source tree only
    through its unit test TestRemoveNotReadyData. Drops the single most recent
    bar when its base volume is exactly zero. -/
def removeNotReadyData (data : List OHLCVData) : List OHLCVData :=
  match data.getLast? with
  | some d => if d.volumeFrom = 0 then data.dropLast else data
  | none => data

/-- Ascending comparison on bar timestamps. -/
def timeLE (a b : OHLCVData) : Prop :=
  a.time ≤ b.time

instance : DecidableRel timeLE :=
  fun a b => inferInstanceAs (Decidable (a.time ≤ b.time))

instance : IsTotal OHLCVData timeLE :=
  ⟨fun a b => Int.le_total a.time b.time⟩

instance : IsTrans OHLCVData timeLE :=
  ⟨fun _ _ _ h1 h2 => le_trans h1 h2⟩

/-- Modelled from the spec: sortByTime, present in the source tree only through
    its unit test TestSortByTime. A stable sort ascending by timestamp, embedded
    as insertion sort, which is stable: ties keep their original order. -/
def sortByTime (data : List OHLCVData) : List OHLCVData :=
  List.insertionSort timeLE data

/-- Result of the backward-paginating loop of the backfill algorithm:
    the accumulated bars, the error that ended the walk (if any), and the
    cursor passed to each fetchPage call, in call order. -/
structure LoopOut where
  acc : List OHLCVData
  err : Option String
  calls : List Int
deriving DecidableEq

/-- Modelled from the spec: the backward-paginating loop of fetchAllOHLCVData
    (the current client code is absent from the source tree). The stub response
    list holds the answers of successive fetchPage calls; an exhausted stub
    means the walk reached the start of history. On a failed call the loop
    stops, keeping the accumulation. An empty page stops the loop normally.
    A page whose bars all have zero base volume is discarded and stops the
    loop normally. Otherwise the bars of the page are accumulated and the
    cursor moves to the earliest timestamp of the page minus one bucket. -/
def fetchLoop (bucket : Int) : List FetchResult → Int → List OHLCVData → LoopOut
  | [], _, acc => ⟨acc, none, []⟩
  | .fail e :: _, cursor, acc => ⟨acc, some e, [cursor]⟩
  | .ok p :: rest, cursor, acc =>
    if p.bars.isEmpty then ⟨acc, none, [cursor]⟩
    else if isVolumeFromZeroInDataSet p.bars then ⟨acc, none, [cursor]⟩
    else
      let next := fetchLoop bucket rest (p.timeFrom - bucket) (acc ++ p.bars)
      ⟨next.acc, next.err, cursor :: next.calls⟩

/-- Modelled from the spec: fetchAllOHLCVData for hourly and daily granularity.
    The cursor starts at now plus a small forward skew; after the loop the
    accumulation is stable-sorted ascending by timestamp. If at least one bar
    was accumulated it is returned even alongside an error; nil (none) is
    returned only when nothing was accumulated. -/
def fetchAllOHLCVData (rs : List FetchResult) (now skew bucket : Int) :
    Option (List OHLCVData) × Option String :=
  let out := fetchLoop bucket rs (now + skew) []
  (if out.acc.isEmpty then none else some (sortByTime out.acc), out.err)

/-- Modelled from the spec: FetchAllMinuteOHLCVData. Same as the generic
    fetch-all, with the sub-hour trim: the chronologically last bar is dropped
    when its base volume is exactly zero (removeNotReadyData). -/
def FetchAllMinuteOHLCVData (rs : List FetchResult) (now skew bucket : Int) :
    Option (List OHLCVData) × Option String :=
  let out := fetchLoop bucket rs (now + skew) []
  (if out.acc.isEmpty then none
   else some (removeNotReadyData (sortByTime out.acc)), out.err)

/-- The all-zero-price test of removeInvalidOHLCVData (cmd/fetchdata.go):
    open, high, low and close are all exactly zero. -/
def allZeroOHLC (d : OHLCVData) : Bool :=
  d.open_ == 0 && d.high == 0 && d.low == 0 && d.close == 0

/-- The backward index loop of removeInvalidOHLCVData (cmd/fetchdata.go):
    for i from len-1 down to 0, the bar at index i of the current slice is
    erased when its four price fields are all zero. The argument is the number
    of indices still to visit, so index i is visited when the argument is i+1. -/
def removeInvalidLoop : List OHLCVData → Nat → List OHLCVData
  | data, 0 => data
  | data, i + 1 =>
    removeInvalidLoop
      (match data[i]? with
       | some d => if allZeroOHLC d then data.eraseIdx i else data
       | none => data) i

/-- removeInvalidOHLCVData (cmd/fetchdata.go): removes OHLCV data rows whose
    price values are all zero, walking indices backward. -/
def removeInvalidOHLCVData (data : List OHLCVData) : List OHLCVData :=
  removeInvalidLoop data data.length

/-- The post-fetch cleaning step of downloadWorker (cmd/fetchdata.go): the
    zero-OHLC strip runs only in fetch-all mode, that is when limit < 0. -/
def downloadWorkerClean (limit : Int) (data : List OHLCVData) : List OHLCVData :=
  if limit < 0 then removeInvalidOHLCVData data else data

/-- The logrus logger handed to or created by the client, reduced to an
    identity tag: logrus.New gives the default logger. -/
structure Logger where
  id : Nat
deriving DecidableEq

/-- The fresh default logger returned by logrus.New. -/
def logrusNew : Logger :=
  ⟨0⟩

/-- The client state relevant to construction (struct Client, client.go);
    the http.Client field carries no observable state here. -/
structure Client where
  apiKey : String
  logger : Logger
deriving DecidableEq

/-- NewClient (client.go): builds a client from an API key and a logger
    argument, storing a freshly created logrus.New logger. -/
def NewClient (apiKey : String) (logger : Logger) : Client :=
  { apiKey := apiKey, logger := logrusNew }

/-- WaitGroup deltas applied for one job across the pipeline of
    cmd/fetchdata.go, in program order: wg.Add(1) at submission (line 91);
    then inside downloadWorker, for a forwarded job, wg.Add(1) right before
    the send to saveChannel (line 155), the deferred wg.Done of the download
    stage (line 110), and the deferred wg.Done of the save stage (line 170);
    for a dropped job only the deferred download Done runs. -/
def jobDeltas (forwarded : Bool) : List Int :=
  if forwarded then [1, 1, -1, -1] else [1, -1]

/-- Modelled from the spec wording of the claim, for comparison with
    jobDeltas: the counter is incremented once per job when submitted and
    decremented once by each stage that finishes it (two decrements for a
    forwarded job, one for a dropped job that never reaches the save stage). -/
def claimedJobDeltas (forwarded : Bool) : List Int :=
  if forwarded then [1, -1, -1] else [1, -1]

/-- The WaitGroup counter of cmd/fetchdata.go after all N jobs were submitted
    (one Add each), the download stage finished the jobs listed in outcomes
    (one Done each, plus one Add for each forwarded job, outcome true), and
    the save stage finished saved of the forwarded jobs (one Done each). -/
def wgCounter (N : Nat) (outcomes : List Bool) (saved : Nat) : Int :=
  (N : Int) - outcomes.length + outcomes.count true - saved

/-- One domain row (struct CryptoOHLCV, pkg/models/models.go) without the
    surrogate ID column. -/
structure CryptoOHLCV where
  tradingSymbol : String
  vsCurrency : String
  timestamp : Int
  open_ : ℚ
  high : ℚ
  low : ℚ
  close : ℚ
  volumeFrom : ℚ
  volumeTo : ℚ
deriving DecidableEq

/-- A stored table row: the surrogate gorm primary key plus the domain row. -/
structure StoredRow where
  id : Nat
  row : CryptoOHLCV
deriving DecidableEq

/-- The natural key of a row: (trading_symbol, vs_currency, timestamp), the
    unique composite index of pkg/models/models.go. -/
def natKey (r : CryptoOHLCV) : String × String × Int :=
  (r.tradingSymbol, r.vsCurrency, r.timestamp)

/-- One timeframe table: its rows and the next fresh surrogate id. -/
structure DBTable where
  rows : List StoredRow
  nextId : Nat
deriving DecidableEq

/-- Row lookup by natural key. -/
def findByKey : List StoredRow → String × String × Int → Option StoredRow
  | [], _ => none
  | r :: rest, k => if natKey r.row = k then some r else findByKey rest k

/-- The DO UPDATE assignment of the ON CONFLICT clause (pkg/db/db.go): only
    open, high, low, close, volume_from and volume_to are overwritten; the
    surrogate id and the three key columns are left untouched. -/
def applyUpdate (old : StoredRow) (d : CryptoOHLCV) : StoredRow :=
  { old with
    row := { old.row with
      open_ := d.open_, high := d.high, low := d.low, close := d.close,
      volumeFrom := d.volumeFrom, volumeTo := d.volumeTo } }

/-- One clauses.Create call of pkg/db/db.go under the Postgres ON CONFLICT
    semantics: on a natural-key collision the conflicting row gets the DO
    UPDATE assignment, otherwise a new row is inserted with a fresh id. -/
def upsertOne (t : DBTable) (d : CryptoOHLCV) : DBTable :=
  if (findByKey t.rows (natKey d)).isSome then
    { t with rows := t.rows.map (fun r => if natKey r.row = natKey d then applyUpdate r d else r) }
  else
    { rows := t.rows ++ [⟨t.nextId, d⟩], nextId := t.nextId + 1 }

/-- The row loop shared by UpsertMinuteOHLCData, UpsertHourlyOHLCData and
    UpsertDailyOHLCData (pkg/db/db.go), with every row write succeeding. -/
def UpsertOHLCData (t : DBTable) (data : List CryptoOHLCV) : DBTable :=
  data.foldl upsertOne t

/-- Agreement on the six overwritten value columns. -/
def sameVals (a b : CryptoOHLCV) : Prop :=
  a.open_ = b.open_ ∧ a.high = b.high ∧ a.low = b.low ∧ a.close = b.close ∧
    a.volumeFrom = b.volumeFrom ∧ a.volumeTo = b.volumeTo

instance : DecidablePred (fun p : CryptoOHLCV × CryptoOHLCV => sameVals p.1 p.2) :=
  fun _ => by unfold sameVals; infer_instance

/-- Natural keys of a table are pairwise distinct (the unique composite
    index of pkg/models/models.go). -/
def keysNodup (rows : List StoredRow) : Prop :=
  (rows.map (fun r => natKey r.row)).Nodup

/-- The row loop of the upsert functions of pkg/db/db.go with a fallible row
    writer: each row is written one at a time through clauses.Create and the
    first error is returned immediately, leaving earlier writes in place and
    never attempting the remaining rows. -/
def upsertRows {St Err : Type} (create : St → CryptoOHLCV → Except Err St) :
    St → List CryptoOHLCV → St × Option Err
  | st, [] => (st, none)
  | st, d :: ds =>
    match create st d with
    | .ok st2 => upsertRows create st2 ds
    | .error e => (st, some e)

/-- Inserting a bar into a list does not change, for any timestamp t, the
    subsequence of bars at t: the inserted bar lands before every bar with an
    equal or larger timestamp, so ties keep their order. -/
theorem filter_orderedInsert_time (x : OHLCVData) (t : Int) :
    ∀ l : List OHLCVData,
      (List.orderedInsert timeLE x l).filter (fun b => b.time == t)
        = (x :: l).filter (fun b => b.time == t) := by
  intro l
  induction l with
  | nil => rfl
  | cons y ys ih =>
    by_cases h : timeLE x y
    · rw [List.orderedInsert, if_pos h]
    · rw [List.orderedInsert, if_neg h]
      have hxy : y.time < x.time := by
        simp only [timeLE] at h
        omega
      by_cases hx : x.time = t <;> by_cases hy : y.time = t
      · exact absurd (hx.trans hy.symm) (by omega)
      · simp [List.filter_cons, hx, hy, ih]
      · simp [List.filter_cons, hx, hy, ih]
      · simp [List.filter_cons, hx, hy, ih]

/-- Stability of sortByTime: for any timestamp t, the bars at t appear in the
    sorted output in their original relative order. -/
theorem sortByTime_filter (t : Int) :
    ∀ l : List OHLCVData,
      (sortByTime l).filter (fun b => b.time == t) = l.filter (fun b => b.time == t) := by
  intro l
  induction l with
  | nil => rfl
  | cons x xs ih =>
    unfold sortByTime at ih ⊢
    rw [List.insertionSort, filter_orderedInsert_time]
    simp only [List.filter_cons, ih]

/-- sortByTime output is ascending by timestamp. -/
theorem sortByTime_sorted (l : List OHLCVData) : List.Sorted timeLE (sortByTime l) :=
  List.sorted_insertionSort timeLE l

/-- sortByTime keeps the number of bars. -/
theorem sortByTime_length (l : List OHLCVData) : (sortByTime l).length = l.length :=
  List.length_insertionSort timeLE l

/-- A page whose bars all have zero base volume (also an empty page) stops the
    loop with the accumulation kept, no error, and no further call. -/
theorem fetchLoop_discard_eq (p : FetchPage) (rest : List FetchResult)
    (cursor bucket : Int) (acc : List OHLCVData)
    (hz : isVolumeFromZeroInDataSet p.bars = true) :
    fetchLoop bucket (FetchResult.ok p :: rest) cursor acc = ⟨acc, none, [cursor]⟩ := by
  by_cases hE : p.bars.isEmpty <;> simp [fetchLoop, hE, hz]

/-- A page holding at least one bar with nonzero base volume is accepted in
    full: all its bars are appended and the loop continues on the remaining
    responses with the cursor at the earliest page timestamp minus one bucket. -/
theorem fetchLoop_accept_eq (p : FetchPage) (rest : List FetchResult)
    (cursor bucket : Int) (acc : List OHLCVData)
    (hz : isVolumeFromZeroInDataSet p.bars = false) :
    fetchLoop bucket (FetchResult.ok p :: rest) cursor acc =
      ⟨(fetchLoop bucket rest (p.timeFrom - bucket) (acc ++ p.bars)).acc,
       (fetchLoop bucket rest (p.timeFrom - bucket) (acc ++ p.bars)).err,
       cursor :: (fetchLoop bucket rest (p.timeFrom - bucket) (acc ++ p.bars)).calls⟩ := by
  have hE : p.bars.isEmpty = false := by
    cases hb : p.bars with
    | nil => rw [hb] at hz; simp [isVolumeFromZeroInDataSet] at hz
    | cons a l => simp [hb]
  simp [fetchLoop, hE, hz]

/-- Whenever the loop consumes at least one response, the first recorded
    fetchPage call uses exactly the cursor the loop was started with. -/
theorem fetchLoop_calls_head (bucket : Int) (r : FetchResult) (rs2 : List FetchResult)
    (c : Int) (a : List OHLCVData) :
    ((fetchLoop bucket (r :: rs2) c a).calls).head? = some c := by
  cases r with
  | fail e => simp [fetchLoop]
  | ok p =>
    by_cases hE : p.bars.isEmpty <;> by_cases hz : isVolumeFromZeroInDataSet p.bars <;>
      simp [fetchLoop, hE, hz]

/-- C10: NewClient ignores the logger it is given and stores a freshly created
    default logger, so no caller-supplied logging dependency reaches the
    client: the result does not depend on the logger argument at all. -/
theorem NewClient_ignores_logger :
    ∀ (apiKey : String) (l1 l2 : Logger),
      NewClient apiKey l1 = NewClient apiKey l2 ∧ (NewClient apiKey l1).logger = logrusNew :=
  fun _ _ _ => ⟨rfl, rfl⟩

/-- C9: the batch upsert is not atomic on error. If the writes of the prefix
    succeed and the write of the next row fails, the loop returns the state
    left by the prefix writes (they stay persisted) together with the error,
    and the remaining rows are never attempted: the result does not depend on
    the tail at all. -/
theorem upsertRows_stops_at_first_error {St Err : Type}
    (create : St → CryptoOHLCV → Except Err St) (pre : List CryptoOHLCV) :
    ∀ (st st2 : St) (tail : List CryptoOHLCV) (d : CryptoOHLCV) (e : Err),
      upsertRows create st pre = (st2, none) →
      create st2 d = Except.error e →
      upsertRows create st (pre ++ d :: tail) = (st2, some e) := by
  induction pre with
  | nil =>
    intro st st2 tail d e hpre herr
    simp only [upsertRows, Prod.mk.injEq] at hpre
    obtain ⟨h1, -⟩ := hpre
    subst h1
    simp [upsertRows, herr]
  | cons p pre ih =>
    intro st st2 tail d e hpre herr
    cases hc : create st p with
    | ok s1 =>
      simp only [upsertRows, hc] at hpre
      simpa only [List.cons_append, upsertRows, hc] using ih s1 st2 tail d e hpre herr
    | error e2 =>
      simp [upsertRows, hc] at hpre

/-- Witness for C9: with a writer counting successful writes and rejecting
    the row at timestamp 3, the first two rows stay persisted, the error of
    the third surfaces, and the fourth row is never attempted. -/
theorem upsertRows_stops_at_first_error_witness :
    upsertRows
      (fun (n : Nat) (d : CryptoOHLCV) =>
        if d.timestamp = 3 then Except.error "dup" else Except.ok (n + 1))
      0
      ([⟨"BTC", "USD", 1, 1, 1, 1, 1, 1, 1⟩, ⟨"BTC", "USD", 2, 1, 1, 1, 1, 1, 1⟩] ++
        ⟨"BTC", "USD", 3, 1, 1, 1, 1, 1, 1⟩ :: [⟨"BTC", "USD", 4, 1, 1, 1, 1, 1, 1⟩])
      = (2, some "dup") :=
  upsertRows_stops_at_first_error
    (fun (n : Nat) (d : CryptoOHLCV) =>
      if d.timestamp = 3 then Except.error "dup" else Except.ok (n + 1))
    [⟨"BTC", "USD", 1, 1, 1, 1, 1, 1, 1⟩, ⟨"BTC", "USD", 2, 1, 1, 1, 1, 1, 1⟩]
    0 2 [⟨"BTC", "USD", 4, 1, 1, 1, 1, 1, 1⟩] ⟨"BTC", "USD", 3, 1, 1, 1, 1, 1, 1⟩ "dup"
    rfl rfl

/-- The backward index walk of removeInvalidOHLCVData acts as a filter on the
    first i elements and leaves the rest of the list untouched. -/
theorem removeInvalidLoop_eq :
    ∀ (i : Nat) (data : List OHLCVData), i ≤ data.length →
      removeInvalidLoop data i =
        (data.take i).filter (fun d => !allZeroOHLC d) ++ data.drop i := by
  intro i
  induction i with
  | zero =>
    intro data h
    simp [removeInvalidLoop]
  | succ i ih =>
    intro data h
    have hi : i < data.length := Nat.lt_of_succ_le h
    have hget : data[i]? = some data[i] := List.getElem?_eq_getElem hi
    have htake : (data.take i).length = i := by
      simp [List.length_take, Nat.min_eq_left (le_of_lt hi)]
    unfold removeInvalidLoop
    rw [hget]
    show removeInvalidLoop (if allZeroOHLC data[i] then data.eraseIdx i else data) i = _
    by_cases hz : allZeroOHLC data[i]
    · rw [if_pos hz]
      have hlen2 : i ≤ (data.eraseIdx i).length := by
        rw [List.length_eraseIdx]
        simp only [hi, if_pos]
        omega
      rw [ih (data.eraseIdx i) hlen2, List.eraseIdx_eq_take_drop_succ,
        List.take_left' htake, List.drop_left' htake, List.take_succ, hget,
        Option.toList_some, List.filter_append]
      have hone : List.filter (fun d => !allZeroOHLC d) [data[i]] = [] := by
        simp [hz]
      rw [hone, List.append_nil]
    · rw [if_neg hz]
      rw [ih data (le_of_lt hi), List.take_succ, hget, Option.toList_some,
        List.filter_append, List.drop_eq_getElem_cons hi]
      have hone : List.filter (fun d => !allZeroOHLC d) [data[i]] = [data[i]] := by
        simp [hz]
      rw [hone, List.append_assoc, List.singleton_append]

/-- C6: in fetch-all mode (limit < 0) the download stage strips exactly the
    bars whose open, high, low and close are all exactly zero, wherever they
    sit, keeping the relative order of the remaining bars (a filter); in
    bounded mode (limit >= 0) no bar is removed. -/
theorem downloadWorkerClean_zero_ohlc :
    ∀ (limit : Int) (data : List OHLCVData),
      (limit < 0 → downloadWorkerClean limit data = data.filter (fun d => !allZeroOHLC d)) ∧
      (0 ≤ limit → downloadWorkerClean limit data = data) := by
  intro limit data
  constructor
  · intro hneg
    unfold downloadWorkerClean removeInvalidOHLCVData
    rw [if_pos hneg, removeInvalidLoop_eq data.length data le_rfl]
    simp
  · intro hpos
    unfold downloadWorkerClean
    rw [if_neg (by omega)]

/-- Witness for C6: a bar with all four prices zero in the middle of a
    fetch-all series is removed and the neighbours keep their order, while in
    bounded mode the same bar survives. -/
theorem downloadWorkerClean_zero_ohlc_witness :
    downloadWorkerClean (-1)
        [⟨1, 1, 1, 1, 1, 1, 1⟩, ⟨2, 0, 0, 0, 0, 1, 1⟩, ⟨3, 2, 2, 2, 2, 1, 1⟩]
      = [⟨1, 1, 1, 1, 1, 1, 1⟩, ⟨3, 2, 2, 2, 2, 1, 1⟩] ∧
    downloadWorkerClean 5 [⟨2, 0, 0, 0, 0, 1, 1⟩] = [⟨2, 0, 0, 0, 0, 1, 1⟩] := by
  constructor
  · rw [(downloadWorkerClean_zero_ohlc (-1) _).1 (by norm_num)]
    decide
  · rw [(downloadWorkerClean_zero_ohlc 5 _).2 (by norm_num)]

/-- Counterexample for C7 as stated: in the code a forwarded job increments
    the shared counter twice (once at submission, once right before the send
    to the save stage), not once; under the accounting of the claim (one
    increment, two decrements) the deltas of a forwarded job would sum to -1,
    so the counter could not return to zero. -/
theorem wg_counter_single_increment_refuted :
    jobDeltas true ≠ claimedJobDeltas true ∧
    (claimedJobDeltas true).sum = -1 ∧
    (jobDeltas true).sum = 0 := by
  decide

/-- C7 amended: the counter is incremented once per job at submission and once
    more when the download stage forwards the job, and decremented once by
    each stage that finishes it; the deltas of every job sum to zero, and with
    all N jobs submitted the counter is zero exactly when the download stage
    has finished all N jobs and the save stage has finished every forwarded
    job, also when some jobs were dropped for hard failure. -/
theorem wg_counter_zero_iff_done :
    (∀ forwarded, (jobDeltas forwarded).sum = 0) ∧
    (∀ (N : Nat) (outcomes : List Bool) (saved : Nat),
      outcomes.length ≤ N → saved ≤ outcomes.count true →
      (wgCounter N outcomes saved = 0 ↔
        outcomes.length = N ∧ saved = outcomes.count true)) := by
  constructor
  · intro f
    cases f <;> simp [jobDeltas]
  · intro N outcomes saved hlen hsaved
    have hcl : outcomes.count true ≤ outcomes.length := List.count_le_length true outcomes
    unfold wgCounter
    constructor
    · intro h
      constructor <;> omega
    · intro h
      omega

/-- Witness for C7: three jobs, the download stage finished all three and
    dropped the middle one, the save stage finished both forwarded jobs:
    the counter is zero. -/
theorem wg_counter_zero_iff_done_witness :
    wgCounter 3 [true, false, true] 2 = 0 ↔
      [true, false, true].length = 3 ∧ 2 = [true, false, true].count true :=
  wg_counter_zero_iff_done.2 3 [true, false, true] 2 (by decide) (by decide)



/-- C1: the backfill walk follows a best-effort policy. The error that ended
    the loop is always surfaced unchanged; whenever at least one bar was
    accumulated before the walk stopped, the accumulated bars (sorted) are
    returned alongside it, and nil (none) is returned only when nothing was
    accumulated. -/
theorem fetchAll_partial_on_error (rs : List FetchResult) (now skew bucket : Int) :
    (fetchAllOHLCVData rs now skew bucket).2 = (fetchLoop bucket rs (now + skew) []).err ∧
    ((fetchLoop bucket rs (now + skew) []).acc ≠ [] →
      (fetchAllOHLCVData rs now skew bucket).1
        = some (sortByTime (fetchLoop bucket rs (now + skew) []).acc) ∧
      sortByTime (fetchLoop bucket rs (now + skew) []).acc ≠ []) ∧
    ((fetchAllOHLCVData rs now skew bucket).1 = none →
      (fetchLoop bucket rs (now + skew) []).acc = []) := by
  refine ⟨rfl, ?_, ?_⟩
  · intro hne
    have hE : (fetchLoop bucket rs (now + skew) []).acc.isEmpty = false := by
      simp_all
    constructor
    · simp [fetchAllOHLCVData, hE]
    · intro hnil
      apply hne
      have hl := congrArg List.length hnil
      rw [sortByTime_length] at hl
      exact List.length_eq_zero.mp (by simpa using hl)
  · intro hnone
    by_contra hne
    have hE : (fetchLoop bucket rs (now + skew) []).acc.isEmpty = false := by
      simp_all
    simp [fetchAllOHLCVData, hE] at hnone

/-- Witness for C1: one good page then a failing call: the bars of the good
    page come back sorted together with the surfaced error. -/
theorem fetchAll_partial_on_error_witness :
    (fetchAllOHLCVData
        [FetchResult.ok ⟨[⟨5, 1, 1, 1, 1, 2, 2⟩, ⟨4, 1, 1, 1, 1, 2, 2⟩], 4⟩,
         FetchResult.fail "boom"] 10 5 1).1
      = some (sortByTime (fetchLoop 1
          [FetchResult.ok ⟨[⟨5, 1, 1, 1, 1, 2, 2⟩, ⟨4, 1, 1, 1, 1, 2, 2⟩], 4⟩,
           FetchResult.fail "boom"] (10 + 5) []).acc) ∧
    sortByTime (fetchLoop 1
        [FetchResult.ok ⟨[⟨5, 1, 1, 1, 1, 2, 2⟩, ⟨4, 1, 1, 1, 1, 2, 2⟩], 4⟩,
         FetchResult.fail "boom"] (10 + 5) []).acc ≠ [] :=
  (fetchAll_partial_on_error
    [FetchResult.ok ⟨[⟨5, 1, 1, 1, 1, 2, 2⟩, ⟨4, 1, 1, 1, 1, 2, 2⟩], 4⟩,
     FetchResult.fail "boom"] 10 5 1).2.1 (by decide)

/-- C2: whatever page sequence the stub client returns, the bars the backfill
    returns are sorted ascending by timestamp, and the sort is stable: for
    every timestamp the bars carrying it keep their original accumulation
    (arrival) order. -/
theorem fetchAll_sorted_stable (rs : List FetchResult) (now skew bucket : Int)
    (bars : List OHLCVData)
    (h : (fetchAllOHLCVData rs now skew bucket).1 = some bars) :
    List.Sorted timeLE bars ∧
    ∀ t : Int, bars.filter (fun b => b.time == t)
      = (fetchLoop bucket rs (now + skew) []).acc.filter (fun b => b.time == t) := by
  have hbars : bars = sortByTime (fetchLoop bucket rs (now + skew) []).acc := by
    by_cases hE : (fetchLoop bucket rs (now + skew) []).acc.isEmpty <;>
      simp [fetchAllOHLCVData, hE] at h
    exact h.symm
  subst hbars
  exact ⟨sortByTime_sorted _, fun t => sortByTime_filter t _⟩

/-- Witness for C2: two overlapping pages arriving in reverse chronological
    order, with a timestamp tie across the page boundary; the output is
    sorted and the tied bars keep arrival order. -/
theorem fetchAll_sorted_stable_witness :
    List.Sorted timeLE
      [⟨1, 1, 1, 1, 1, 4, 4⟩, ⟨2, 1, 1, 1, 1, 9, 9⟩, ⟨2, 1, 1, 1, 1, 7, 7⟩] ∧
    [⟨1, 1, 1, 1, 1, 4, 4⟩, ⟨2, 1, 1, 1, 1, 9, 9⟩,
        (⟨2, 1, 1, 1, 1, 7, 7⟩ : OHLCVData)].filter (fun b => b.time == 2)
      = (fetchLoop 1
          [FetchResult.ok ⟨[⟨2, 1, 1, 1, 1, 9, 9⟩], 2⟩,
           FetchResult.ok ⟨[⟨2, 1, 1, 1, 1, 7, 7⟩, ⟨1, 1, 1, 1, 1, 4, 4⟩], 1⟩]
          (10 + 0) []).acc.filter (fun b => b.time == 2) :=
  ⟨(fetchAll_sorted_stable
      [FetchResult.ok ⟨[⟨2, 1, 1, 1, 1, 9, 9⟩], 2⟩,
       FetchResult.ok ⟨[⟨2, 1, 1, 1, 1, 7, 7⟩, ⟨1, 1, 1, 1, 1, 4, 4⟩], 1⟩] 10 0 1
      [⟨1, 1, 1, 1, 1, 4, 4⟩, ⟨2, 1, 1, 1, 1, 9, 9⟩, ⟨2, 1, 1, 1, 1, 7, 7⟩]
      (by decide)).1,
   (fetchAll_sorted_stable
      [FetchResult.ok ⟨[⟨2, 1, 1, 1, 1, 9, 9⟩], 2⟩,
       FetchResult.ok ⟨[⟨2, 1, 1, 1, 1, 7, 7⟩, ⟨1, 1, 1, 1, 1, 4, 4⟩], 1⟩] 10 0 1
      [⟨1, 1, 1, 1, 1, 4, 4⟩, ⟨2, 1, 1, 1, 1, 9, 9⟩, ⟨2, 1, 1, 1, 1, 7, 7⟩]
      (by decide)).2 2⟩

/-- C3: a fetched page whose bars all have zero base volume stops the loop
    without error and is discarded whole, while a page with any nonzero-volume
    bar (also a mixed page) is accepted in full; the rule inspects the page,
    never individual bars. -/
theorem fetchLoop_zero_volume_page (p : FetchPage) (rest : List FetchResult)
    (cursor bucket : Int) (acc : List OHLCVData) :
    (isVolumeFromZeroInDataSet p.bars = true →
      fetchLoop bucket (FetchResult.ok p :: rest) cursor acc = ⟨acc, none, [cursor]⟩) ∧
    (isVolumeFromZeroInDataSet p.bars = false →
      fetchLoop bucket (FetchResult.ok p :: rest) cursor acc =
        ⟨(fetchLoop bucket rest (p.timeFrom - bucket) (acc ++ p.bars)).acc,
         (fetchLoop bucket rest (p.timeFrom - bucket) (acc ++ p.bars)).err,
         cursor :: (fetchLoop bucket rest (p.timeFrom - bucket) (acc ++ p.bars)).calls⟩) :=
  ⟨fetchLoop_discard_eq p rest cursor bucket acc,
   fetchLoop_accept_eq p rest cursor bucket acc⟩

/-- Witness for C3: an all-zero-volume page is discarded and stops the walk
    with what was accumulated before; a mixed page (volumes 0 and 2) is
    accepted whole, both bars included. -/
theorem fetchLoop_zero_volume_page_witness :
    fetchLoop 1 [FetchResult.ok ⟨[⟨7, 1, 1, 1, 1, 0, 0⟩, ⟨6, 1, 1, 1, 1, 0, 0⟩], 6⟩]
        9 [⟨8, 1, 1, 1, 1, 5, 5⟩]
      = ⟨[⟨8, 1, 1, 1, 1, 5, 5⟩], none, [9]⟩ ∧
    fetchLoop 1 [FetchResult.ok ⟨[⟨7, 1, 1, 1, 1, 0, 0⟩, ⟨6, 1, 1, 1, 1, 2, 2⟩], 6⟩]
        9 [⟨8, 1, 1, 1, 1, 5, 5⟩]
      = ⟨(fetchLoop 1 [] (6 - 1)
            [⟨8, 1, 1, 1, 1, 5, 5⟩, ⟨7, 1, 1, 1, 1, 0, 0⟩, ⟨6, 1, 1, 1, 1, 2, 2⟩]).acc,
         (fetchLoop 1 [] (6 - 1)
            [⟨8, 1, 1, 1, 1, 5, 5⟩, ⟨7, 1, 1, 1, 1, 0, 0⟩, ⟨6, 1, 1, 1, 1, 2, 2⟩]).err,
         9 :: (fetchLoop 1 [] (6 - 1)
            [⟨8, 1, 1, 1, 1, 5, 5⟩, ⟨7, 1, 1, 1, 1, 0, 0⟩, ⟨6, 1, 1, 1, 1, 2, 2⟩]).calls⟩ :=
  ⟨(fetchLoop_zero_volume_page ⟨[⟨7, 1, 1, 1, 1, 0, 0⟩, ⟨6, 1, 1, 1, 1, 0, 0⟩], 6⟩ []
      9 1 [⟨8, 1, 1, 1, 1, 5, 5⟩]).1 (by decide),
   (fetchLoop_zero_volume_page ⟨[⟨7, 1, 1, 1, 1, 0, 0⟩, ⟨6, 1, 1, 1, 1, 2, 2⟩], 6⟩ []
      9 1 [⟨8, 1, 1, 1, 1, 5, 5⟩]).2 (by decide)⟩

/-- C4: after accepting a non-empty page the loop sets the cursor for the next
    fetchPage call to the earliest timestamp of the page minus one timeframe
    bucket: the recorded call trace continues with exactly that cursor. -/
theorem fetchLoop_next_cursor (p : FetchPage) (rest : List FetchResult)
    (cursor bucket : Int) (acc : List OHLCVData) :
    (isVolumeFromZeroInDataSet p.bars = false →
      (fetchLoop bucket (FetchResult.ok p :: rest) cursor acc).calls
        = cursor :: (fetchLoop bucket rest (p.timeFrom - bucket) (acc ++ p.bars)).calls) ∧
    (isVolumeFromZeroInDataSet p.bars = false →
      ∀ (r : FetchResult) (rs2 : List FetchResult), rest = r :: rs2 →
        ((fetchLoop bucket (FetchResult.ok p :: rest) cursor acc).calls)[1]?
          = some (p.timeFrom - bucket)) := by
  constructor
  · intro hz
    rw [fetchLoop_accept_eq p rest cursor bucket acc hz]
  · intro hz r rs2 hrest
    rw [fetchLoop_accept_eq p rest cursor bucket acc hz]
    subst hrest
    rw [List.getElem?_cons_succ, ← List.head?_eq_getElem?]
    exact fetchLoop_calls_head bucket r rs2 (p.timeFrom - bucket) (acc ++ p.bars)

/-- Witness for C4: a page with earliest timestamp 100 and bucket 60 makes the
    second recorded call use cursor 100 - 60 = 40. -/
theorem fetchLoop_next_cursor_witness :
    ((fetchLoop 60
        [FetchResult.ok ⟨[⟨100, 1, 1, 1, 1, 3, 3⟩], 100⟩, FetchResult.fail "stop"]
        200 []).calls)[1]? = some (100 - 60) :=
  (fetchLoop_next_cursor ⟨[⟨100, 1, 1, 1, 1, 3, 3⟩], 100⟩ [FetchResult.fail "stop"]
    200 60 []).2 (by decide) (FetchResult.fail "stop") [] rfl

/-- C5: for minute granularity, when the chronologically last bar of the final
    sorted series has base volume exactly zero, that single bar is dropped and
    every earlier bar is kept. -/
theorem FetchAllMinute_drops_last_zero_volume (rs : List FetchResult)
    (now skew bucket : Int) (l : List OHLCVData) (b : OHLCVData)
    (hsort : sortByTime (fetchLoop bucket rs (now + skew) []).acc = l ++ [b])
    (hvol : b.volumeFrom = 0) :
    (FetchAllMinuteOHLCVData rs now skew bucket).1 = some l := by
  have hne : (fetchLoop bucket rs (now + skew) []).acc ≠ [] := by
    intro h0
    rw [h0] at hsort
    simp [sortByTime] at hsort
  have hE : (fetchLoop bucket rs (now + skew) []).acc.isEmpty = false := by
    simp_all
  simp only [FetchAllMinuteOHLCVData, hE, Bool.false_eq_true, if_false, hsort]
  simp [removeNotReadyData, List.getLast?_concat, hvol, List.dropLast_concat]

/-- Witness for C5: minute bars with volumes 5, 3, 0 at increasing timestamps
    yield the bars with volumes 5 and 3. -/
theorem FetchAllMinute_drops_last_zero_volume_witness :
    (FetchAllMinuteOHLCVData
        [FetchResult.ok ⟨[⟨1, 1, 1, 1, 1, 5, 5⟩, ⟨2, 1, 1, 1, 1, 3, 3⟩,
          ⟨3, 1, 1, 1, 1, 0, 0⟩], 1⟩] 0 0 60).1
      = some [⟨1, 1, 1, 1, 1, 5, 5⟩, ⟨2, 1, 1, 1, 1, 3, 3⟩] :=
  FetchAllMinute_drops_last_zero_volume
    [FetchResult.ok ⟨[⟨1, 1, 1, 1, 1, 5, 5⟩, ⟨2, 1, 1, 1, 1, 3, 3⟩,
      ⟨3, 1, 1, 1, 1, 0, 0⟩], 1⟩] 0 0 60
    [⟨1, 1, 1, 1, 1, 5, 5⟩, ⟨2, 1, 1, 1, 1, 3, 3⟩] ⟨3, 1, 1, 1, 1, 0, 0⟩
    (by decide) (by decide)


/-- The DO UPDATE assignment leaves the natural key unchanged. -/
theorem natKey_applyUpdate (r : StoredRow) (d : CryptoOHLCV) :
    natKey (applyUpdate r d).row = natKey r.row :=
  rfl

/-- The DO UPDATE assignment leaves the surrogate id unchanged. -/
theorem id_applyUpdate (r : StoredRow) (d : CryptoOHLCV) :
    (applyUpdate r d).id = r.id :=
  rfl

/-- After the DO UPDATE assignment the six value columns hold the batch values. -/
theorem sameVals_applyUpdate (r : StoredRow) (d : CryptoOHLCV) :
    sameVals (applyUpdate r d).row d := by
  simp [applyUpdate, sameVals]

/-- Updating a row that already carries the key and the values of the batch
    row changes nothing. -/
theorem applyUpdate_self (r : StoredRow) (d : CryptoOHLCV)
    (hk : natKey r.row = natKey d) (hv : sameVals r.row d) :
    applyUpdate r d = r := by
  obtain ⟨i, ⟨ts, vc, tt, o, hi, lo, c, vf, vt⟩⟩ := r
  obtain ⟨ts2, vc2, tt2, o2, hi2, lo2, c2, vf2, vt2⟩ := d
  simp only [sameVals] at hv
  obtain ⟨h1, h2, h3, h4, h5, h6⟩ := hv
  simp [applyUpdate, h1, h2, h3, h4, h5, h6]

/-- A lookup hit characterizes membership of a row with the key. -/
theorem findByKey_isSome_iff :
    ∀ (rows : List StoredRow) (k : String × String × Int),
      (findByKey rows k).isSome ↔ ∃ r ∈ rows, natKey r.row = k := by
  intro rows k
  induction rows with
  | nil => simp [findByKey]
  | cons x rest ih =>
    by_cases hpr : natKey x.row = k
    · rw [findByKey, if_pos hpr]
      simp only [Option.isSome_some, true_iff]
      exact ⟨x, by simp, hpr⟩
    · rw [findByKey, if_neg hpr, ih]
      constructor
      · rintro ⟨r, hr, hk⟩
        exact ⟨r, by simp [hr], hk⟩
      · rintro ⟨r, hr, hk⟩
        rcases List.mem_cons.mp hr with h | h
        · exact absurd (h ▸ hk) hpr
        · exact ⟨r, h, hk⟩

/-- A found row is a member of the table and carries the key. -/
theorem findByKey_some_mem :
    ∀ (rows : List StoredRow) (k : String × String × Int) (r : StoredRow),
      findByKey rows k = some r → r ∈ rows ∧ natKey r.row = k := by
  intro rows k
  induction rows with
  | nil => intro r h; simp [findByKey] at h
  | cons x rest ih =>
    intro r h
    by_cases hpr : natKey x.row = k
    · rw [findByKey, if_pos hpr] at h
      injection h with h
      subst h
      exact ⟨by simp, hpr⟩
    · rw [findByKey, if_neg hpr] at h
      obtain ⟨hmem, hk⟩ := ih r h
      exact ⟨by simp [hmem], hk⟩

/-- Lookup after the conflict-update map: the row found under the key is the
    old row with the DO UPDATE assignment applied. -/
theorem findByKey_map_update (d : CryptoOHLCV) (k : String × String × Int) :
    ∀ (rows : List StoredRow) (old : StoredRow), findByKey rows k = some old →
      findByKey (rows.map (fun r => if natKey r.row = k then applyUpdate r d else r)) k
        = some (applyUpdate old d) := by
  intro rows
  induction rows with
  | nil => intro old h; simp [findByKey] at h
  | cons r rest ih =>
    intro old h
    by_cases hpr : natKey r.row = k
    · rw [findByKey, if_pos hpr] at h
      injection h with h
      subst h
      rw [List.map_cons, if_pos hpr, findByKey,
        if_pos ((natKey_applyUpdate r d).trans hpr)]
    · rw [findByKey, if_neg hpr] at h
      rw [List.map_cons, if_neg hpr, findByKey, if_neg hpr]
      exact ih old h

/-- The conflict-update map leaves the key column sequence of the table
    unchanged. -/
theorem keys_map_update (d : CryptoOHLCV) (k : String × String × Int) :
    ∀ rows : List StoredRow,
      (rows.map (fun r => if natKey r.row = k then applyUpdate r d else r)).map
          (fun r => natKey r.row)
        = rows.map (fun r => natKey r.row) := by
  intro rows
  induction rows with
  | nil => rfl
  | cons r rest ih =>
    rw [List.map_cons, List.map_cons, List.map_cons, ih]
    by_cases hpr : natKey r.row = k
    · rw [if_pos hpr, natKey_applyUpdate]
    · rw [if_neg hpr]

/-- In a table with pairwise distinct keys, rows are determined by their key. -/
theorem key_inj (rows : List StoredRow) (hnd : keysNodup rows)
    (r1 r2 : StoredRow) (h1 : r1 ∈ rows) (h2 : r2 ∈ rows)
    (hk : natKey r1.row = natKey r2.row) : r1 = r2 :=
  List.inj_on_of_nodup_map hnd h1 h2 hk

/-- One upsert keeps the keys of the table pairwise distinct. -/
theorem upsertOne_keysNodup (t : DBTable) (d : CryptoOHLCV)
    (h : keysNodup t.rows) : keysNodup (upsertOne t d).rows := by
  by_cases hf : (findByKey t.rows (natKey d)).isSome
  · simp only [upsertOne, hf, if_true]
    unfold keysNodup
    rw [keys_map_update]
    exact h
  · simp only [upsertOne, hf, if_false]
    unfold keysNodup
    have hnotin : natKey d ∉ t.rows.map (fun r => natKey r.row) := by
      intro hmem
      obtain ⟨r, hr, hkr⟩ := List.mem_map.mp hmem
      exact hf ((findByKey_isSome_iff t.rows (natKey d)).mpr ⟨r, hr, hkr⟩)
    have hbase : (t.rows.map (fun r => natKey r.row)).Nodup := h
    simp [List.nodup_append, hbase, hnotin]

/-- A row whose key is untouched by the upsert stays in the table unchanged. -/
theorem upsertOne_preserves_other (t : DBTable) (d : CryptoOHLCV) (r : StoredRow)
    (hmem : r ∈ t.rows) (hne : natKey r.row ≠ natKey d) :
    r ∈ (upsertOne t d).rows := by
  by_cases hf : (findByKey t.rows (natKey d)).isSome
  · simp only [upsertOne, hf, if_true]
    exact List.mem_map.mpr ⟨r, hmem, by rw [if_neg hne]⟩
  · simp only [upsertOne, hf, if_false]
    exact List.mem_append_left _ hmem

/-- A row whose key is touched by none of the batch rows survives the whole
    batch unchanged. -/
theorem UpsertOHLCData_preserves_other :
    ∀ (ds : List CryptoOHLCV) (t : DBTable) (r : StoredRow),
      r ∈ t.rows → (∀ d2 ∈ ds, natKey r.row ≠ natKey d2) →
      r ∈ (UpsertOHLCData t ds).rows := by
  intro ds
  induction ds with
  | nil => intro t r hmem _; exact hmem
  | cons d ds ih =>
    intro t r hmem hall
    show r ∈ (UpsertOHLCData (upsertOne t d) ds).rows
    exact ih (upsertOne t d) r
      (upsertOne_preserves_other t d r hmem (hall d (by simp)))
      (fun d2 hd2 => hall d2 (by simp [hd2]))

/-- After one upsert of d the table holds a row with the key and the six
    values of d. -/
theorem upsertOne_has_row (t : DBTable) (d : CryptoOHLCV) :
    ∃ r ∈ (upsertOne t d).rows, natKey r.row = natKey d ∧ sameVals r.row d := by
  by_cases hf : (findByKey t.rows (natKey d)).isSome
  · obtain ⟨old, hold⟩ := Option.isSome_iff_exists.mp hf
    have h2 := findByKey_map_update d (natKey d) t.rows old hold
    simp only [upsertOne, hf, if_true]
    obtain ⟨hmem, hk⟩ := findByKey_some_mem _ _ _ h2
    exact ⟨applyUpdate old d, hmem, hk, sameVals_applyUpdate old d⟩
  · simp only [upsertOne, hf, if_false]
    exact ⟨⟨t.nextId, d⟩, List.mem_append_right _ (by simp), rfl, by simp [sameVals]⟩

/-- The whole batch keeps the keys of the table pairwise distinct. -/
theorem UpsertOHLCData_keysNodup :
    ∀ (ds : List CryptoOHLCV) (t : DBTable),
      keysNodup t.rows → keysNodup (UpsertOHLCData t ds).rows := by
  intro ds
  induction ds with
  | nil => intro t h; exact h
  | cons d ds ih =>
    intro t h
    exact ih (upsertOne t d) (upsertOne_keysNodup t d h)

/-- After a batch with pairwise distinct keys, every batch row has a table row
    carrying its key and its six values. -/
theorem UpsertOHLCData_has_rows :
    ∀ (ds : List CryptoOHLCV) (t : DBTable), (ds.map natKey).Nodup →
      ∀ d ∈ ds, ∃ r ∈ (UpsertOHLCData t ds).rows,
        natKey r.row = natKey d ∧ sameVals r.row d := by
  intro ds
  induction ds with
  | nil => intro t _ d hd; simp at hd
  | cons d0 ds ih =>
    intro t hnd d hd
    have hnd2 : (ds.map natKey).Nodup := (List.nodup_cons.mp hnd).2
    have hnotin : natKey d0 ∉ ds.map natKey := (List.nodup_cons.mp hnd).1
    rcases List.mem_cons.mp hd with hda | hdb
    · subst hda
      obtain ⟨r, hmem, hk, hv⟩ := upsertOne_has_row t d
      refine ⟨r, ?_, hk, hv⟩
      show r ∈ (UpsertOHLCData (upsertOne t d) ds).rows
      refine UpsertOHLCData_preserves_other ds (upsertOne t d) r hmem ?_
      intro d2 hd2 heq
      exact hnotin (List.mem_map.mpr ⟨d2, hd2, by rw [← heq, ← hk]⟩)
    · exact ih (upsertOne t d0) hnd2 d hdb

/-- Upserting a batch whose rows are already present with matching values is
    a no-op on the table state. -/
theorem UpsertOHLCData_second_pass_id :
    ∀ (ds : List CryptoOHLCV) (s : DBTable), keysNodup s.rows →
      (∀ d ∈ ds, ∃ r ∈ s.rows, natKey r.row = natKey d ∧ sameVals r.row d) →
      UpsertOHLCData s ds = s := by
  intro ds
  induction ds with
  | nil => intro s _ _; rfl
  | cons d ds ih =>
    intro s hnd hall
    obtain ⟨r, hmem, hk, hv⟩ := hall d (by simp)
    have hone : upsertOne s d = s := by
      have hf : (findByKey s.rows (natKey d)).isSome :=
        (findByKey_isSome_iff s.rows (natKey d)).mpr ⟨r, hmem, hk⟩
      simp only [upsertOne, hf, if_true]
      have hmap : s.rows.map
          (fun r2 => if natKey r2.row = natKey d then applyUpdate r2 d else r2) = s.rows := by
        have hpt : ∀ r2 ∈ s.rows,
            (if natKey r2.row = natKey d then applyUpdate r2 d else r2) = id r2 := by
          intro r2 hr2
          by_cases hk2 : natKey r2.row = natKey d
          · rw [if_pos hk2]
            have : r2 = r := key_inj s.rows hnd r2 r hr2 hmem (hk2.trans hk.symm)
            subst this
            exact applyUpdate_self r2 d hk2 hv
          · rw [if_neg hk2]
            rfl
        rw [List.map_congr_left hpt, List.map_id]
      rw [hmap]
    show UpsertOHLCData (upsertOne s d) ds = s
    rw [hone]
    exact ih s hnd (fun d2 hd2 => hall d2 (by simp [hd2]))

/-- In a table with pairwise distinct keys, a present key is carried by
    exactly one row. -/
theorem countP_key_eq_one :
    ∀ (rows : List StoredRow), keysNodup rows →
      ∀ r ∈ rows, rows.countP (fun r2 => natKey r2.row == natKey r.row) = 1 := by
  intro rows
  induction rows with
  | nil => intro _ r hr; simp at hr
  | cons x rest ih =>
    intro hnd r hr
    have hx : natKey x.row ∉ rest.map (fun r2 => natKey r2.row) :=
      (List.nodup_cons.mp hnd).1
    have hnd2 : keysNodup rest := (List.nodup_cons.mp hnd).2
    rcases List.mem_cons.mp hr with hra | hrb
    · subst hra
      rw [List.countP_cons_of_pos _ _ (by simp)]
      have hzero : rest.countP (fun r2 => natKey r2.row == natKey r.row) = 0 := by
        rw [List.countP_eq_zero]
        intro r2 hr2 hp
        exact hx (List.mem_map.mpr ⟨r2, hr2, by simpa using hp⟩)
      rw [hzero]
    · rw [List.countP_cons_of_neg _ _ ?_]
      · exact ih hnd2 r hrb
      · intro hp
        have hpe : natKey x.row = natKey r.row := by simpa using hp
        exact hx (hpe ▸ List.mem_map.mpr ⟨r, hrb, rfl⟩)

/-- C8: the upsert is frame-preserving and idempotent. On a natural-key
    collision only the six value columns are overwritten (the DO UPDATE
    assignment), the surrogate id and the key stay untouched; batch upserts
    keep keys unique; running the same batch twice leaves the table exactly as
    after the first run; and after a run every batch row is stored in exactly
    one table row carrying its latest values. -/
theorem Upsert_idempotent_frame :
    (∀ (t : DBTable) (d : CryptoOHLCV) (old : StoredRow),
      findByKey t.rows (natKey d) = some old →
        findByKey (upsertOne t d).rows (natKey d) = some (applyUpdate old d) ∧
        (applyUpdate old d).id = old.id ∧
        natKey (applyUpdate old d).row = natKey old.row) ∧
    (∀ (t : DBTable) (ds : List CryptoOHLCV),
      keysNodup t.rows → keysNodup (UpsertOHLCData t ds).rows) ∧
    (∀ (t : DBTable) (ds : List CryptoOHLCV),
      keysNodup t.rows → (ds.map natKey).Nodup →
        UpsertOHLCData (UpsertOHLCData t ds) ds = UpsertOHLCData t ds) ∧
    (∀ (t : DBTable) (ds : List CryptoOHLCV) (d : CryptoOHLCV),
      keysNodup t.rows → (ds.map natKey).Nodup → d ∈ ds →
        (UpsertOHLCData t ds).rows.countP (fun r => natKey r.row == natKey d) = 1 ∧
        ∀ r ∈ (UpsertOHLCData t ds).rows, natKey r.row = natKey d → sameVals r.row d) := by
  refine ⟨?_, ?_, ?_, ?_⟩
  · intro t d old h
    have hf : (findByKey t.rows (natKey d)).isSome := by rw [h]; rfl
    refine ⟨?_, rfl, rfl⟩
    simp only [upsertOne, hf, if_true]
    exact findByKey_map_update d (natKey d) t.rows old h
  · intro t ds h
    exact UpsertOHLCData_keysNodup ds t h
  · intro t ds h1 h2
    exact UpsertOHLCData_second_pass_id ds (UpsertOHLCData t ds)
      (UpsertOHLCData_keysNodup ds t h1) (UpsertOHLCData_has_rows ds t h2)
  · intro t ds d h1 h2 hd
    obtain ⟨r, hmem, hk, hv⟩ := UpsertOHLCData_has_rows ds t h2 d hd
    have hnd := UpsertOHLCData_keysNodup ds t h1
    constructor
    · have hc := countP_key_eq_one _ hnd r hmem
      simp only [hk] at hc
      exact hc
    · intro r2 hr2 hk2
      have hrr : r2 = r := key_inj _ hnd r2 r hr2 hmem (hk2.trans hk.symm)
      rw [hrr]
      exact hv

/-- Witness for C8: a collision updates the six value columns of the existing
    row and keeps id 7; and upserting the same two-row batch twice into an
    empty table gives the same table as upserting it once. -/
theorem Upsert_idempotent_frame_witness :
    findByKey
        (upsertOne ⟨[⟨7, ⟨"BTC", "USD", 1, 0, 0, 0, 0, 0, 0⟩⟩], 8⟩
          ⟨"BTC", "USD", 1, 1, 2, 3, 4, 5, 6⟩).rows
        (natKey ⟨"BTC", "USD", 1, 1, 2, 3, 4, 5, 6⟩)
      = some (applyUpdate ⟨7, ⟨"BTC", "USD", 1, 0, 0, 0, 0, 0, 0⟩⟩
          ⟨"BTC", "USD", 1, 1, 2, 3, 4, 5, 6⟩) ∧
    (applyUpdate ⟨7, ⟨"BTC", "USD", 1, 0, 0, 0, 0, 0, 0⟩⟩
        ⟨"BTC", "USD", 1, 1, 2, 3, 4, 5, 6⟩).id = 7 ∧
    UpsertOHLCData
        (UpsertOHLCData ⟨[], 0⟩
          [⟨"BTC", "USD", 1, 1, 2, 3, 4, 5, 6⟩, ⟨"BTC", "USD", 2, 7, 8, 9, 10, 11, 12⟩])
        [⟨"BTC", "USD", 1, 1, 2, 3, 4, 5, 6⟩, ⟨"BTC", "USD", 2, 7, 8, 9, 10, 11, 12⟩]
      = UpsertOHLCData ⟨[], 0⟩
          [⟨"BTC", "USD", 1, 1, 2, 3, 4, 5, 6⟩, ⟨"BTC", "USD", 2, 7, 8, 9, 10, 11, 12⟩] :=
  ⟨(Upsert_idempotent_frame.1 ⟨[⟨7, ⟨"BTC", "USD", 1, 0, 0, 0, 0, 0, 0⟩⟩], 8⟩
      ⟨"BTC", "USD", 1, 1, 2, 3, 4, 5, 6⟩ ⟨7, ⟨"BTC", "USD", 1, 0, 0, 0, 0, 0, 0⟩⟩
      (by decide)).1,
   (Upsert_idempotent_frame.1 ⟨[⟨7, ⟨"BTC", "USD", 1, 0, 0, 0, 0, 0, 0⟩⟩], 8⟩
      ⟨"BTC", "USD", 1, 1, 2, 3, 4, 5, 6⟩ ⟨7, ⟨"BTC", "USD", 1, 0, 0, 0, 0, 0, 0⟩⟩
      (by decide)).2.1,
   Upsert_idempotent_frame.2.2.1 ⟨[], 0⟩
      [⟨"BTC", "USD", 1, 1, 2, 3, 4, 5, 6⟩, ⟨"BTC", "USD", 2, 7, 8, 9, 10, 11, 12⟩]
      (List.nodup_nil) (by decide)⟩
